import Mathlib

/-!
Verification of the note reference resolution engine of the
vscode-markdown-notes repository, against its specification.

The source is TypeScript.  Strings are modelled as `List Char`, documents as
their text, the filesystem and the host editor capabilities (corpus
enumeration, path resolution) as explicit parameters, and the engine
operations (tokenisation, fuzzy-name normalisation, definition resolution,
occurrence search, note creation) as pure Lean functions translated from the
source.  JavaScript regular expressions are ASCII-faithful: the character
classes involved (`\w`, `\s`, the extension alternations) are modelled by the
explicit character sets below.
-/

/-- Strings of the modelled program: lists of characters. -/
abbrev Str := List Char

/-- The 63 characters of the JavaScript regex class `\w` = `[A-Za-z0-9_]`. -/
def wordChars : Str :=
  ("ABCDEFGHIJKLMNOPQRSTUVWXYZabcdefghijklmnopqrstuvwxyz0123456789_").toList

/-- Membership in the JavaScript `\w` class. -/
def isWordChar (c : Char) : Bool := c ∈ wordChars

/-- The JavaScript whitespace class `\s`, restricted to its ASCII members
(space, tab, line feed, vertical tab, form feed, carriage return). -/
def isJsWs (c : Char) : Bool :=
  c = ' ' ∨ c = '\t' ∨ c = '\n' ∨ c = '\x0b' ∨ c = '\x0c' ∨ c = '\r'

/-- JavaScript `toLowerCase`, for the ASCII strings the engine lowercases
(every lowercase call in the source happens after non-word characters have
been replaced, so the ASCII mapping of `Char.toLower` is faithful). -/
def toLowerStr (s : Str) : Str := s.map Char.toLower

/-- JavaScript `String.prototype.trimLeft`. -/
def trimLeftL (s : Str) : Str := s.dropWhile isJsWs

/-- JavaScript `String.prototype.trim` (trim left then right). -/
def trimL (s : Str) : Str := ((s.dropWhile isJsWs).reverse.dropWhile isJsWs).reverse

/-- JavaScript `s.split(regex)` for a single-character class regex: split at
every character satisfying `p`, keeping empty pieces. -/
def jsSplitOn (p : Char → Bool) : Str → List Str
  | [] => [[]]
  | c :: cs =>
    if p c then [] :: jsSplitOn p cs
    else
      match jsSplitOn p cs with
      | [] => [[c]]
      | w :: ws => (c :: w) :: ws

/-- `Array.prototype.map` with the element index, as used by the source. -/
def mapIdxL (f : Nat → α → β) : Nat → List α → List β
  | _, [] => []
  | i, a :: t => f i a :: mapIdxL f (i + 1) t

/-- Substring test (does `needle` occur inside `hay`). -/
def listContainsSub (needle hay : Str) : Bool :=
  hay.tails.any (fun t => needle.isPrefixOf t)

/-- Case-insensitive suffix test: does `s` end with `suffix`
(both sides lowercased first)? -/
def endsWithCI (s suf : Str) : Bool :=
  (toLowerStr suf).isSuffixOf (toLowerStr s)

/-- Case-sensitive suffix test. -/
def endsWithCS (s suf : Str) : Bool := suf.isSuffixOf s

/-- Node `path.basename` (posix): drop trailing slashes, then keep the final
slash-free segment. -/
def basenameL (p : Str) : Str :=
  ((p.reverse.dropWhile (fun c => c = '/')).takeWhile (fun c => ¬ c = '/')).reverse

/-- Node `path.dirname` (posix): everything before the last slash that
precedes the basename; `.` when there is no directory part. -/
def dirnameL (p : Str) : Str :=
  match p with
  | [] => ['.']
  | c0 :: rest =>
    let r2 := ((rest.reverse.dropWhile (fun c => c = '/')).dropWhile (fun c => ¬ c = '/'))
    if r2 = [] then (if c0 = '/' then ['/'] else ['.'])
    else if c0 = '/' ∧ r2.length = 1 then ['/', '/']
    else p.take r2.length

/-- Node `path.join` for two segments, as the source uses it (no internal
slash normalisation is needed for the paths it is given). -/
def joinPath (a b : Str) : Str :=
  if a = [] then b else if b = [] then a else a ++ '/' :: b

/-! ## Configuration (`NoteWorkspace.cfg`) -/

/-- The `vscodeMarkdownNotes.slugifyCharacter` setting. -/
inductive SlugifyCharacter
  | dash
  | underscore
  | noneValue
deriving DecidableEq

/-- The `vscodeMarkdownNotes.workspaceFilenameConvention` setting. -/
inductive WorkspaceFilenameConvention
  | uniqueFilenames
  | relativePaths
deriving DecidableEq

/-- The user configuration consumed by `NoteWorkspace.cfg()`. -/
structure Config where
  createNoteOnGoToDefinitionWhenMissing : Bool
  defaultFileExtension : Str
  slugifyCharacter : SlugifyCharacter
  workspaceFilenameConvention : WorkspaceFilenameConvention
deriving DecidableEq

/-- `NoteWorkspace.slugifyChar()`: the setting rendered as its string value
(`'-'`, `'_'` or `'NONE'`). -/
def slugifyCharStr : SlugifyCharacter → Str
  | .dash => ['-']
  | .underscore => ['_']
  | .noneValue => ("NONE").toList

/-- `NoteWorkspace.useUniqueFilenames()`. -/
def useUniqueFilenames (cfg : Config) : Bool :=
  cfg.workspaceFilenameConvention = WorkspaceFilenameConvention.uniqueFilenames

/-! ## NoteWorkspace string machinery -/

/-- The test of `NoteWorkspace.rxFileExtensions()` =
`/\.(md|markdown|mdx|fountain)$/i` on a whole string. -/
def rxFileExtTest (s : Str) : Bool :=
  endsWithCI s ((".md").toList) ∨ endsWithCI s ((".markdown").toList) ∨
    endsWithCI s ((".mdx").toList) ∨ endsWithCI s ((".fountain").toList)

/-- `NoteWorkspace.stripExtension`: remove the end-anchored, case-insensitive
extension match (the four alternatives end differently, so at most one
matches; its length is dropped from the end). -/
def stripExtension (s : Str) : Str :=
  if endsWithCI s ((".md").toList) then s.take (s.length - 3)
  else if endsWithCI s ((".markdown").toList) then s.take (s.length - 9)
  else if endsWithCI s ((".mdx").toList) then s.take (s.length - 4)
  else if endsWithCI s ((".fountain").toList) then s.take (s.length - 9)
  else s

/-- `noteName.replace(/[\[\]]/g, '')`: remove every square bracket. -/
def removeBrackets (s : Str) : Str :=
  s.filter (fun c => ¬ (c = '[' ∨ c = ']'))

/-- The scanner behind `replace(/\W+/gi, rep)`: copy word characters; a
non-word character emits `rep` when it starts a run (`inRun = false`) and
nothing when it continues one. -/
def replaceNWAux (rep : Str) : Bool → Str → Str
  | _, [] => []
  | inRun, c :: t =>
    if isWordChar c then c :: replaceNWAux rep false t
    else if inRun then replaceNWAux rep true t
    else rep ++ replaceNWAux rep true t

/-- `title.replace(/\W+/gi, rep)`: replace every maximal run of non-word
characters by the replacement string `rep`. -/
def replaceNonWordRuns (rep : Str) (s : Str) : Str := replaceNWAux rep false s

/-- `.replace(/[-_]*$/, '')`: drop trailing dashes and underscores. -/
def trimTrailingDU (s : Str) : Str :=
  (s.reverse.dropWhile (fun c => c = '-' ∨ c = '_')).reverse

/-- `NoteWorkspace.slugifyTitle`: non-word runs to the slugify character,
lowercase, trailing `-`/`_` trimmed. -/
def slugifyTitle (k : SlugifyCharacter) (title : Str) : Str :=
  trimTrailingDU (toLowerStr (replaceNonWordRuns (slugifyCharStr k) title))

/-- `NoteWorkspace.normalizeNoteNameForFuzzyMatch`: brackets removed, path
stripped to the basename, extension stripped, slugified. -/
def normalizeNoteNameForFuzzyMatch (k : SlugifyCharacter) (noteName : Str) : Str :=
  slugifyTitle k (stripExtension (basenameL (removeBrackets noteName)))

/-- `NoteWorkspace.noteNamesFuzzyMatch`: equality after normalisation. -/
def noteNamesFuzzyMatch (k : SlugifyCharacter) (left right : Str) : Bool :=
  normalizeNoteNameForFuzzyMatch k left = normalizeNoteNameForFuzzyMatch k right

/-- `NoteWorkspace.noteFileNameFromTitle`: slugify unless the slugify
character is `NONE`, then append the default extension unless the name
already ends in a recognised one. -/
def noteFileNameFromTitle (cfg : Config) (title : Str) : Str :=
  let t := if slugifyCharStr cfg.slugifyCharacter = ("NONE").toList then title
           else slugifyTitle cfg.slugifyCharacter title
  if rxFileExtTest t then t else t ++ '.' :: cfg.defaultFileExtension

/-- `NoteWorkspace.noteFiles()`: the corpus filtered to recognised note
extensions (every handle the host yields has the `file` scheme here). -/
def noteFilesOf (allFiles : List Str) : List Str :=
  allFiles.filter rxFileExtTest

/-! ## Title casing (`capitalize`, `titleCase`, `titleCaseFilename`) -/

/-- `capitalize`: empty strings unchanged, otherwise uppercase the first
character. -/
def capitalize : Str → Str
  | [] => []
  | c :: t => Char.toUpper c :: t

/-- The template literal holding the Chicago-style lowercase words, exactly
as it appears in the source (leading newline, five lines, trailing newline
and two spaces). -/
def chicagoTemplate : Str :=
  ("\na aboard about above across after against along amid among an and anti around as at before behind\nbelow beneath beside besides between beyond but by concerning considering despite down during except\nexcepting excluding following for from in inside into like minus near of off on onto opposite or\noutside over past per plus regarding round save since so than the through to toward towards under\nunderneath unlike until up upon versus via with within without yet\n  ").toList

/-- `chicagoStyleNoCap`: the template split on `/\s/` (this keeps the empty
pieces produced by the surrounding whitespace). -/
def chicagoStyleNoCap : List Str := jsSplitOn isJsWs chicagoTemplate

/-- `titleCase`: split the sentence on single whitespace characters,
capitalize the first word, the last word and every word whose lowercasing is
not in `chicagoStyleNoCap`, and join with single spaces. -/
def titleCase (sentence : Str) : Str :=
  if sentence = [] then sentence
  else
    let words := jsSplitOn isJsWs sentence
    List.intercalate [' ']
      (mapIdxL
        (fun i w =>
          if i = 0 ∨ i = words.length - 1 then capitalize w
          else if toLowerStr w ∈ chicagoStyleNoCap then w
          else capitalize w)
        0 words)

/-- `s.replace(/\.(md|markdown)$/, '')` — the case-sensitive, end-anchored
strip used by `titleCaseFilename`. -/
def stripMdExtCS (s : Str) : Str :=
  if endsWithCS s ((".md").toList) then s.take (s.length - 3)
  else if endsWithCS s ((".markdown").toList) then s.take (s.length - 9)
  else s

/-- `s.replace(/[-_]/gi, ' ')`: every dash or underscore becomes a space. -/
def dashUnderscoreToSpace (s : Str) : Str :=
  s.map (fun c => if c = '-' ∨ c = '_' then ' ' else c)

/-- `s.replace(/\s+/, ' ')`: only the first maximal whitespace run is
collapsed (the regex has no `g` flag). -/
def collapseFirstWsRun : Str → Str
  | [] => []
  | c :: t => if isJsWs c then ' ' :: t.dropWhile isJsWs else c :: collapseFirstWsRun t

/-- `titleCaseFilename`: strip a `.md`/`.markdown` suffix, separators to
spaces, collapse the first whitespace run, then title-case. -/
def titleCaseFilename (filename : Str) : Str :=
  if filename = [] then filename
  else titleCase (collapseFirstWsRun (dashUnderscoreToSpace (stripMdExtCS filename)))

/-! ## Lexical scanner (`getContextWord`) -/

/-- `ContextWordType` of the source. -/
inductive ContextWordType
  | Null
  | WikiLink
  | Tag
deriving DecidableEq

/-- `ContextWord`: the classified token.  Ranges live on a single line of the
modelled document and are pairs of column offsets. -/
structure ContextWord where
  type : ContextWordType
  word : Str
  hasExtension : Option Bool
  range : Option (Nat × Nat)
deriving DecidableEq

/-- `NULL_CONTEXT_WORD`. -/
def NULL_CONTEXT_WORD : ContextWord :=
  { type := ContextWordType.Null, word := [], hasExtension := none, range := none }

/-- The unanchored, case-insensitive test `/\.(md|markdown)/i` used both on
link text (`hasExtension`) and on corpus paths: does the lowercased string
contain `.md` or `.markdown` anywhere? -/
def rxMdUnanchoredTest (s : Str) : Bool :=
  listContainsSub ((".md").toList) (toLowerStr s) ∨
    listContainsSub ((".markdown").toList) (toLowerStr s)

/-- `document.getText(range)` on the single-line modelled document. -/
def getTextRange (doc : Str) (r : Nat × Nat) : Str :=
  (doc.drop r.1).take (r.2 - r.1)

/-- `contextWord.replace(/^\#+/, '')`: strip the leading run of `#`. -/
def stripLeadingHashes (s : Str) : Str := s.dropWhile (fun c => c = '#')

/-- `getContextWord(document, position)`.  The host capability
`getWordRangeAtPosition` is external (spec section 6): its two answers — the
range matching the tag regex and the range matching the wiki-link regex at
the cursor — are passed in as `tagR` and `wikiR`. -/
def getContextWord (doc : Str) (tagR wikiR : Option (Nat × Nat)) : ContextWord :=
  let tagPart : Option ContextWord :=
    match tagR with
    | some r =>
      let cw := getTextRange doc r
      if cw ≠ [] then
        some { type := ContextWordType.Tag, word := stripLeadingHashes cw,
               hasExtension := none, range := some r }
      else none
    | none => none
  match tagPart with
  | some t => t
  | none =>
    match wikiR with
    | some r =>
      let r2 := (r.1 + 2, r.2)
      let cw := getTextRange doc r2
      if cw ≠ [] then
        { type := ContextWordType.WikiLink, word := cw,
          hasExtension := some (rxMdUnanchoredTest cw), range := some r2 }
      else NULL_CONTEXT_WORD
    | none => NULL_CONTEXT_WORD

/-! ## Occurrence search (`ReferenceSearch`) -/

/-- The regex class `\S` (non-whitespace). -/
def isNonWs (c : Char) : Bool := ! isJsWs c

/-- The first element surviving `dropWhile` fails the predicate. -/
theorem dropWhile_eq_cons_head {p : α → Bool} {l : List α} {c : α} {t : List α}
    (h : l.dropWhile p = c :: t) : p c = false := by
  induction l with
  | nil => simp at h
  | cons a l2 ih =>
    rw [List.dropWhile_cons] at h
    by_cases hpa : p a = true
    · exact ih (by rwa [if_pos hpa] at h)
    · rw [if_neg hpa] at h
      cases h
      simpa using hpa

/-- A non-empty `takeWhile` exposes a head satisfying the predicate. -/
theorem takeWhile_ne_nil_head {p : α → Bool} {l : List α}
    (h : l.takeWhile p ≠ []) : ∃ c t, l = c :: t ∧ p c = true := by
  cases l with
  | nil => simp at h
  | cons a l2 =>
    refine ⟨a, l2, rfl, ?_⟩
    by_contra hpa
    rw [List.takeWhile_cons, if_neg (by simpa using hpa)] at h
    exact h rfl

/-- A position: zero-based line and column, as `vscode.Position`. -/
structure Posn where
  line : Nat
  character : Nat
deriving DecidableEq

/-- A range on one line, as the `vscode.Range` values the search builds. -/
structure Rnge where
  start : Posn
  stop : Posn
deriving DecidableEq

/-- A `vscode.Location`: file path and range. -/
structure SearchLoc where
  path : Str
  rng : Rnge
deriving DecidableEq

/-- JavaScript `line.split(/(\S+\s+)/)`: the pieces are the text before the
first match, each match (a maximal non-whitespace run with its following
whitespace run, kept because the group captures), the possibly empty text
between matches, and the text after the last match. -/
def splitSpyF : Nat → Str → List Str
  | 0, s => [s]
  | fuel + 1, s =>
    if (s.dropWhile isJsWs).dropWhile isNonWs = [] then [s]
    else
      s.takeWhile isJsWs ::
        ((s.dropWhile isJsWs).takeWhile isNonWs ++
          ((s.dropWhile isJsWs).dropWhile isNonWs).takeWhile isJsWs) ::
        splitSpyF fuel (((s.dropWhile isJsWs).dropWhile isNonWs).dropWhile isJsWs)

/-- The split with enough fuel (each step consumes at least one character,
see `splitSpyF_irrel`). -/
def splitSpy (s : Str) : List Str := splitSpyF (s.length + 1) s

/-- The per-chunk loop body of `rangesForWordInDocumentData`: walk the chunks
keeping the running column `charNum`; for each chunk compute the leading
whitespace width and the trimmed word, and report a range when the trimmed
word equals the query. -/
def chunkScan (q : Str) (lineNum : Nat) : Nat → List Str → List Rnge
  | _, [] => []
  | charNum, w :: rest =>
    let spacesBefore := w.length - (trimLeftL w).length
    let trimmed := trimL w
    (if trimmed = q then
        [⟨⟨lineNum, charNum + spacesBefore⟩,
          ⟨lineNum, charNum + spacesBefore + trimmed.length⟩⟩]
      else []) ++ chunkScan q lineNum (charNum + w.length) rest

/-- `ReferenceSearch.rangesForWordInDocumentData`: nothing for a null or
empty query, else scan each line (split on `/[\r\n]/`) chunk by chunk. -/
def rangesForWordInDocumentData (queryWord : Option Str) (data : Str) : List Rnge :=
  match queryWord with
  | none => []
  | some q =>
    if q = [] then []
    else
      List.flatten
        (mapIdxL (fun lineNum line => chunkScan q lineNum 0 (splitSpy line)) 0
          (jsSplitOn (fun c => c = '\r' ∨ c = '\n') data))

/-- The query string `ReferenceSearch.search` builds.  The source tests
`contextWord.type == Tag` and then `(contextWord.type = WikiLink)` — an
assignment whose value (`WikiLink`, truthy) makes the second branch cover
every non-Tag token, so the final `return []` branch is dead: every non-Tag
token, the `Null` token included, gets the wiki-link query. -/
def searchQuery (contextWord : ContextWord) : Str :=
  if contextWord.type = ContextWordType.Tag then '#' :: contextWord.word
  else '[' :: '[' :: (basenameL contextWord.word ++ [']', ']'])

/-- `ReferenceSearch.search`: corpus files (path with their content) are
filtered by `/\.(md|markdown)/i` on the path, each file is scanned with the
query, and every range becomes a location in file order. -/
def search (files : List (Str × Str)) (contextWord : ContextWord) : List SearchLoc :=
  let query := searchQuery contextWord
  ((files.filter (fun f => rxMdUnanchoredTest f.1)).map
    (fun f => (rangesForWordInDocumentData (some query) f.2).map
      (fun r => SearchLoc.mk f.1 r))).flatten

/-! Specification-side reading of occurrence search (used to compare with the
source translation above): the whitespace-delimited words of a line with
their exact starting columns, and one reported span per word strictly equal
to the query. -/

/-- The maximal non-whitespace runs of `s` with their columns, starting at
column `col`. -/
def wordsFromF : Nat → Str → Nat → List (Nat × Str)
  | 0, _, _ => []
  | fuel + 1, s, col =>
    if (s.dropWhile isJsWs).takeWhile isNonWs = [] then []
    else
      (col + (s.takeWhile isJsWs).length, (s.dropWhile isJsWs).takeWhile isNonWs) ::
        wordsFromF fuel ((s.dropWhile isJsWs).dropWhile isNonWs)
          (col + (s.takeWhile isJsWs).length + ((s.dropWhile isJsWs).takeWhile isNonWs).length)

/-- The word list with enough fuel (each step consumes at least one
character). -/
def wordsFrom (s : Str) (col : Nat) : List (Nat × Str) :=
  wordsFromF (s.length + 1) s col

/-- The spans the specification describes for one line: one per
whitespace-delimited word strictly equal to the query, spanning from the
word's first character to its length. -/
def specLineRanges (q : Str) (lineNum : Nat) (line : Str) : List Rnge :=
  (wordsFrom line 0).filterMap
    (fun cw =>
      if cw.2 = q then
        some ⟨⟨lineNum, cw.1⟩, ⟨lineNum, cw.1 + cw.2.length⟩⟩
      else none)

/-- The spec-side occurrence spans of a whole document. -/
def specOccurrenceRanges (q : Str) (data : Str) : List Rnge :=
  List.flatten
    (mapIdxL (fun i line => specLineRanges q i line) 0
      (jsSplitOn (fun c => c = '\r' ∨ c = '\n') data))

/-- The spec-side occurrence search over a corpus for a literal query. -/
def specOccurrences (files : List (Str × Str)) (q : Str) : List SearchLoc :=
  ((files.filter (fun f => rxMdUnanchoredTest f.1)).map
    (fun f => (specOccurrenceRanges q f.2).map (fun r => SearchLoc.mk f.1 r))).flatten

/-! ## Filesystem model and the definition provider -/

/-- The filesystem visible to `existsSync` / `writeFileSync`: an association
list from absolute paths to contents (later writes shadow earlier ones). -/
structure FsState where
  files : List (Str × Str)
deriving DecidableEq

/-- `existsSync`. -/
def fsExists (fs : FsState) (p : Str) : Bool :=
  fs.files.any (fun e => e.1 = p)

/-- `writeFileSync`. -/
def fsWrite (fs : FsState) (p contents : Str) : FsState :=
  ⟨(p, contents) :: fs.files⟩

/-- The user-visible warnings the engine can surface. -/
inductive Warning
  | ambiguousConvention
deriving DecidableEq

/-- Result of `createMissingNote`: the created path (if any), the filesystem
after the call, and the warnings surfaced. -/
structure CreateOut where
  path : Option Str
  fs : FsState
  warnings : List Warning
deriving DecidableEq

/-- The body written for a new note: a `# Title` heading and a blank line. -/
def noteContents (title : Str) : Str := ('#' :: ' ' :: title) ++ ['\n', '\n']

/-- `MarkdownDefinitionProvider.createMissingNote` (modular provider):
refuse for non-WikiLink refs, refuse when the create-on-missing setting is
off, do nothing without an active editor; under any convention other than
`uniqueFilenames` surface a warning and abort with no write; otherwise write
the note (slugified filename joined to the active document's directory, a
title-cased heading) and return its path. -/
def createMissingNote (cfg : Config) (activeFileName : Option Str)
    (ref : ContextWord) (fs : FsState) : CreateOut :=
  if ref.type ≠ ContextWordType.WikiLink then ⟨none, fs, []⟩
  else if ¬ cfg.createNoteOnGoToDefinitionWhenMissing then ⟨none, fs, []⟩
  else
    match activeFileName with
    | none => ⟨none, fs, []⟩
    | some filename =>
      if ¬ useUniqueFilenames cfg then ⟨none, fs, [Warning.ambiguousConvention]⟩
      else
        let mdFilename := noteFileNameFromTitle cfg ref.word
        let path := joinPath (dirnameL filename) mdFilename
        ⟨some path, fsWrite fs path (noteContents (titleCaseFilename ref.word)), []⟩

/-- Result of `provideDefinition`: the returned locations (each at position
`(0, 0)`), the filesystem after the call, the warnings surfaced, and two
effect flags recording whether the corpus was enumerated for basename
matching and whether the relative-path existence check ran. -/
structure ProvideOut where
  locations : List (Str × Posn)
  fs : FsState
  warnings : List Warning
  scannedCorpus : Bool
  checkedRelPath : Bool
deriving DecidableEq

/-- `MarkdownDefinitionProvider.provideDefinition` (modular provider): empty
for non-WikiLink tokens; step 1 under `uniqueFilenames` fuzzy-matches every
note file; step 2, only when step 1 found nothing, resolves the word against
the referencing document's directory (`resolveP` is the host's
`path.resolve`); step 3, only when both found nothing, attempts note
synthesis. -/
def provideDefinition (cfg : Config) (allFiles : List Str) (fs : FsState)
    (resolveP : Str → Str → Str) (activeFileName : Option Str)
    (docPath : Str) (ref : ContextWord) : ProvideOut :=
  if ref.type ≠ ContextWordType.WikiLink then ⟨[], fs, [], false, false⟩
  else
    let files1 :=
      if useUniqueFilenames cfg then
        (noteFilesOf allFiles).filter (fun f => noteNamesFuzzyMatch cfg.slugifyCharacter f ref.word)
      else []
    let files2 :=
      if files1 = [] then
        (if fsExists fs (resolveP (dirnameL docPath) ref.word) then
          [resolveP (dirnameL docPath) ref.word]
        else [])
      else files1
    if files2 = [] then
      let co := createMissingNote cfg activeFileName ref fs
      ⟨(co.path.elim [] (fun p => [(p, ⟨0, 0⟩)])), co.fs, co.warnings,
        useUniqueFilenames cfg, files1 = []⟩
    else
      ⟨files2.map (fun f => (f, ⟨0, 0⟩)), fs, [], useUniqueFilenames cfg, files1 = []⟩

/-- `MarkdownDefinitionProvider.createMissingNote` (monolithic provider in
`extension.ts`): same refusal ladder; the filename is the word with `.md`
appended unless it already ends in `.md`/`.markdown` (case-insensitive,
anchored), and the path is built with a literal slash. -/
def createMissingNoteMono (cfg : Config) (activeFileName : Option Str)
    (contextWord : ContextWord) (fs : FsState) : CreateOut :=
  if contextWord.type ≠ ContextWordType.WikiLink then ⟨none, fs, []⟩
  else if ¬ cfg.createNoteOnGoToDefinitionWhenMissing then ⟨none, fs, []⟩
  else
    match activeFileName with
    | none => ⟨none, fs, []⟩
    | some filename =>
      if ¬ useUniqueFilenames cfg then ⟨none, fs, [Warning.ambiguousConvention]⟩
      else
        let mdFilename :=
          if endsWithCI contextWord.word ((".md").toList) ∨
              endsWithCI contextWord.word ((".markdown").toList) then contextWord.word
          else contextWord.word ++ (".md").toList
        let path := dirnameL filename ++ '/' :: mdFilename
        ⟨some path, fsWrite fs path (noteContents (titleCaseFilename contextWord.word)), []⟩

/-- `MarkdownDefinitionProvider.provideDefinition` (monolithic provider in
`extension.ts`): returns empty for non-WikiLink tokens and — before touching
the corpus, the filesystem or note creation — for WikiLink tokens whose
`hasExtension` is not true; then the same three ordered steps, with exact
basename equality instead of fuzzy matching and no extension filter on the
corpus. -/
def provideDefinitionMono (cfg : Config) (allFiles : List Str) (fs : FsState)
    (resolveP : Str → Str → Str) (activeFileName : Option Str)
    (docPath : Str) (contextWord : ContextWord) : ProvideOut :=
  if contextWord.type ≠ ContextWordType.WikiLink then ⟨[], fs, [], false, false⟩
  else if contextWord.hasExtension ≠ some true then ⟨[], fs, [], false, false⟩
  else
    let files1 :=
      if useUniqueFilenames cfg then
        allFiles.filter (fun f => basenameL f = contextWord.word)
      else []
    let files2 :=
      if files1 = [] then
        (if fsExists fs (resolveP (dirnameL docPath) contextWord.word) then
          [resolveP (dirnameL docPath) contextWord.word]
        else [])
      else files1
    if files2 = [] then
      let co := createMissingNoteMono cfg activeFileName contextWord fs
      ⟨(co.path.elim [] (fun p => [(p, ⟨0, 0⟩)])), co.fs, co.warnings,
        useUniqueFilenames cfg, files1 = []⟩
    else
      ⟨files2.map (fun f => (f, ⟨0, 0⟩)), fs, [], useUniqueFilenames cfg, files1 = []⟩

/-! ## The workspace tag list (`WorkspaceTagList`) -/

/-- `/^\#[\w\-\_]+$/i` on a whole word. -/
def tagAnchorMatch : Str → Bool
  | '#' :: rest => rest ≠ [] ∧ rest.all (fun c => isWordChar c ∨ c = '-')
  | _ => false

/-- The tags of one file's data: split on `/\s/`, keep the anchored-tag
words. -/
def tagsInData (data : Str) : List Str :=
  (jsSplitOn isJsWs data).filter tagAnchorMatch

/-- JavaScript `Set.prototype.add` on an insertion-ordered set. -/
def tagSetAdd (s : List Str) (t : Str) : List Str :=
  if t ∈ s then s else s ++ [t]

/-- The process-wide state of `WorkspaceTagList`. -/
structure TagListState where
  startedInit : Bool
  completedInit : Bool
  tagWordSet : List Str
deriving DecidableEq

/-- The events that touch `WorkspaceTagList`: a call to `initSet` (which
receives the corpus it would schedule for reading), and the completion of
one scheduled `readFile` callback adding a file's tags to the set. -/
inductive TagEvent
  | initCall (corpus : List Str)
  | fileRead (data : Str)

/-- One step of the tag-list state machine.  The returned Bool records
whether this step started a corpus scan.  `initSet` returns immediately when
`STARTED_INIT` is already set; otherwise it marks the scan started (and,
synchronously, completed — the reads finish later as `fileRead` events).
A `fileRead` callback folds the file's tags into the set with `Set.add`. -/
def tagStep (s : TagListState) : TagEvent → TagListState × Bool
  | .initCall _ =>
    if s.startedInit then (s, false)
    else ({ s with startedInit := true, completedInit := true }, true)
  | .fileRead data =>
    ({ s with tagWordSet := (tagsInData data).foldl tagSetAdd s.tagWordSet }, false)

/-! ## The new-note command (`NoteWorkspace.newNote`) -/

/-- Result of the new-note command body: the filesystem afterwards and the
path of the document opened (none when the command aborted). -/
structure NewNoteOut where
  fs : FsState
  opened : Option Str
deriving DecidableEq

/-- `noteName.replace(/\s+/g, '')`: remove all whitespace. -/
def stripAllWs (s : Str) : Str := s.filter isNonWs

/-- The continuation `NoteWorkspace.newNote` runs on the input-box result:
abort on a missing, empty or all-whitespace title; compute the slugified
filename and join it to the workspace root; write a `# Title` body only when
no file exists at that path; then open the file. -/
def newNote (cfg : Config) (workspaceUri : Str) (fs : FsState)
    (noteName : Option Str) : NewNoteOut :=
  match noteName with
  | none => ⟨fs, none⟩
  | some name =>
    if name = [] ∨ stripAllWs name = [] then ⟨fs, none⟩
    else
      let filename := noteFileNameFromTitle cfg name
      let filepath := joinPath workspaceUri filename
      if fsExists fs filepath then ⟨fs, some filepath⟩
      else ⟨fsWrite fs filepath (noteContents name), some filepath⟩

/-! ## Specification-side reading of title casing -/

/-- The fixed Chicago-style list of lowercase function words, as the plain
word list the specification describes (the source keeps it in a whitespace-
padded template string; `chicagoStyleNoCap_eq` relates the two). -/
def chicagoWords : List Str :=
  List.map String.toList
    ["a", "aboard", "about", "above", "across", "after", "against", "along",
     "amid", "among", "an", "and", "anti", "around", "as", "at", "before",
     "behind", "below", "beneath", "beside", "besides", "between", "beyond",
     "but", "by", "concerning", "considering", "despite", "down", "during",
     "except", "excepting", "excluding", "following", "for", "from", "in",
     "inside", "into", "like", "minus", "near", "of", "off", "on", "onto",
     "opposite", "or", "outside", "over", "past", "per", "plus", "regarding",
     "round", "save", "since", "so", "than", "the", "through", "to", "toward",
     "towards", "under", "underneath", "unlike", "until", "up", "upon",
     "versus", "via", "with", "within", "without", "yet"]

/-- The per-word title-casing rule the specification states: capitalize the
first word, the last word and every interior word not in the fixed list;
leave listed interior words unchanged. -/
def titleCaseWords (ws : List Str) : List Str :=
  mapIdxL
    (fun i w =>
      if i = 0 ∨ i = ws.length - 1 then capitalize w
      else if toLowerStr w ∈ chicagoWords then w
      else capitalize w)
    0 ws

/-! ## Specification-side reading of the link-extension flag -/

/-- The property the specification ascribes to `hasExtension`: the captured
text ends in a recognized note extension of the monolithic scanner
(`.md` or `.markdown`), matched case-insensitively. -/
def endsInRecognizedExtension (s : Str) : Bool :=
  endsWithCI s ((".md").toList) ∨ endsWithCI s ((".markdown").toList)

/-! ## The normal form of fuzzy-match normalisation (proof infrastructure) -/

/-- The characters that can appear in a normalised note name under each
slugify setting: lowercase word characters, plus the dash when the slugify
character is `-`. -/
def cleanChars : SlugifyCharacter → Str
  | .dash => ("abcdefghijklmnopqrstuvwxyz0123456789_-").toList
  | .underscore => ("abcdefghijklmnopqrstuvwxyz0123456789_").toList
  | .noneValue => ("abcdefghijklmnopqrstuvwxyz0123456789_").toList

/-- No two adjacent non-word characters. -/
def noAdjNonWord : Str → Bool
  | [] => true
  | [_] => true
  | a :: b :: t => (isWordChar a || isWordChar b) && noAdjNonWord (b :: t)

/-! ## Helper lemmas -/

/-- Folding `Set.add` over a list never removes elements. -/
theorem mem_foldl_tagSetAdd (l : List Str) :
    ∀ (acc : List Str) (t : Str), t ∈ acc → t ∈ l.foldl tagSetAdd acc := by
  induction l with
  | nil => intro acc t ht; simpa using ht
  | cons a l2 ih =>
    intro acc t ht
    refine ih (tagSetAdd acc a) t ?_
    unfold tagSetAdd
    split
    · exact ht
    · exact List.mem_append_left _ ht

/-- `jsSplitOn` never returns the empty list. -/
theorem jsSplitOn_ne_nil (p : Char → Bool) (s : Str) : jsSplitOn p s ≠ [] := by
  induction s with
  | nil => simp [jsSplitOn]
  | cons c cs ih =>
    rw [jsSplitOn]
    split
    · simp
    · cases hcs : jsSplitOn p cs with
      | nil => simp
      | cons w ws => simp

/-- Splitting a separator-free string yields the one-piece list. -/
theorem jsSplitOn_no_sep {p : Char → Bool} {s : Str}
    (h : ∀ c ∈ s, p c = false) : jsSplitOn p s = [s] := by
  induction s with
  | nil => rfl
  | cons c cs ih =>
    rw [jsSplitOn, if_neg (by simp [h c (by simp)]),
      ih (fun d hd => h d (by simp [hd]))]

/-- Splitting after a separator-free prefix prepends the prefix to the first
piece of the remainder's split. -/
theorem jsSplitOn_append_free {p : Char → Bool} {w : Str} (r : Str)
    (h : ∀ c ∈ w, p c = false) :
    jsSplitOn p (w ++ r) =
      (w ++ (jsSplitOn p r).head (jsSplitOn_ne_nil p r)) :: (jsSplitOn p r).tail := by
  induction w with
  | nil => simp [List.head_cons_tail]
  | cons c w2 ih =>
    rw [List.cons_append, jsSplitOn, if_neg (by simp [h c (by simp)]),
      ih (fun d hd => h d (by simp [hd]))]
    simp

/-- `intercalate` over a single piece. -/
theorem intercalate_one (s a : Str) : List.intercalate s [a] = a := by
  simp [List.intercalate]

/-- `intercalate` over two or more pieces. -/
theorem intercalate_cons (s a : Str) {l : List Str} (h : l ≠ []) :
    List.intercalate s (a :: l) = a ++ s ++ List.intercalate s l := by
  cases l with
  | nil => exact absurd rfl h
  | cons b t => simp [List.intercalate, List.intersperse]

/-- Splitting undoes joining: `split(sep, join(sep, ws)) = ws` when no word
contains a separator character. -/
theorem jsSplitOn_intercalate {p : Char → Bool} {sep : Char}
    (hsep : p sep = true) :
    ∀ ws : List Str, ws ≠ [] → (∀ w ∈ ws, ∀ c ∈ w, p c = false) →
      jsSplitOn p (List.intercalate [sep] ws) = ws := by
  intro ws
  induction ws with
  | nil => intro h; exact absurd rfl h
  | cons w rest ih =>
    intro _ hfree
    cases rest with
    | nil => rw [intercalate_one]; exact jsSplitOn_no_sep (hfree w (by simp))
    | cons v r2 =>
      rw [intercalate_cons _ _ (by simp), List.append_assoc, List.cons_append,
        List.nil_append,
        jsSplitOn_append_free _ (hfree w (by simp))]
      have hrest : jsSplitOn p (sep :: List.intercalate [sep] (v :: r2)) =
          [] :: jsSplitOn p (List.intercalate [sep] (v :: r2)) := by
        rw [jsSplitOn, if_pos hsep]
      have hr : jsSplitOn p (List.intercalate [sep] (v :: r2)) = v :: r2 :=
        ih (by simp) (fun u hu => hfree u (by simp [hu]))
      simp [hrest, hr]

/-- `mapIdxL` congruence. -/
theorem mapIdxL_congr {f g : Nat → α → β} (h : ∀ i a, f i a = g i a) :
    ∀ (n : Nat) (l : List α), mapIdxL f n l = mapIdxL g n l := by
  intro n l
  induction l generalizing n with
  | nil => rfl
  | cons a t ih => rw [mapIdxL, mapIdxL, h, ih]

/-- The source's whitespace-padded template splits into one leading empty
piece, the Chicago word list, and three trailing empty pieces. -/
theorem chicagoStyleNoCap_eq :
    chicagoStyleNoCap = ([] : Str) :: (chicagoWords ++ [[], [], []]) := by
  decide

/-- `listContainsSub` decides the infix relation. -/
theorem listContainsSub_iff {n h : Str} :
    listContainsSub n h = true ↔ n <:+: h := by
  unfold listContainsSub
  rw [List.any_eq_true]
  constructor
  · rintro ⟨t, ht, hpre⟩
    rw [List.mem_tails] at ht
    exact List.infix_iff_prefix_suffix.mpr ⟨t, List.isPrefixOf_iff_prefix.mp hpre, ht⟩
  · intro hinf
    obtain ⟨t, hpre, hsuf⟩ := List.infix_iff_prefix_suffix.mp hinf
    exact ⟨t, (List.mem_tails _ _).mpr hsuf, List.isPrefixOf_iff_prefix.mpr hpre⟩

/-- The text of the range shifted two columns right is the full range's text
without its first two characters. -/
theorem getTextRange_shift_two (doc : Str) (a b : Nat) :
    getTextRange doc (a + 2, b) = (getTextRange doc (a, b)).drop 2 := by
  unfold getTextRange
  rw [List.drop_take, List.drop_drop]
  simp [Nat.sub_sub, Nat.add_comm]

/-- Characters of the replacement scanner's output are word characters or
characters of the replacement string. -/
theorem mem_replaceNWAux {rep : Str} :
    ∀ (s : Str) (b : Bool) (c : Char), c ∈ replaceNWAux rep b s →
      isWordChar c = true ∨ c ∈ rep := by
  intro s
  induction s with
  | nil => intro b c hc; simp [replaceNWAux] at hc
  | cons d t ih =>
    intro b c hc
    rw [replaceNWAux] at hc
    by_cases hd : isWordChar d = true
    · rw [if_pos hd] at hc
      rcases List.mem_cons.mp hc with h | h
      · exact Or.inl (h ▸ hd)
      · exact ih false c h
    · rw [if_neg hd] at hc
      cases b with
      | true => exact ih true c (by simpa using hc)
      | false =>
        rcases List.mem_append.mp (by simpa using hc) with h | h
        · exact Or.inr h
        · exact ih true c h

/-- In the in-run state the scanner's output is empty or starts with a word
character. -/
theorem replaceNWAux_true_head {rep : Str} :
    ∀ s : Str, replaceNWAux rep true s = [] ∨
      ∃ c t2, replaceNWAux rep true s = c :: t2 ∧ isWordChar c = true := by
  intro s
  induction s with
  | nil => exact Or.inl rfl
  | cons d t ih =>
    rw [replaceNWAux]
    by_cases hd : isWordChar d = true
    · rw [if_pos hd]
      exact Or.inr ⟨d, replaceNWAux rep false t, rfl, hd⟩
    · rw [if_neg hd, if_pos rfl]
      exact ih

/-- `noAdjNonWord` ignores a word character pushed in front. -/
theorem noAdjNonWord_cons_word {a : Char} (ha : isWordChar a = true)
    {l : Str} (hl : noAdjNonWord l = true) : noAdjNonWord (a :: l) = true := by
  cases l with
  | nil => rfl
  | cons b t => simp [noAdjNonWord, ha, hl]

/-- `noAdjNonWord` drops its head. -/
theorem noAdjNonWord_tail {a : Char} {l : Str}
    (h : noAdjNonWord (a :: l) = true) : noAdjNonWord l = true := by
  cases l with
  | nil => rfl
  | cons b t =>
    have h2 : ((isWordChar a || isWordChar b) && noAdjNonWord (b :: t)) = true := h
    exact (Bool.and_eq_true_iff.mp h2).2

/-- The dash scanner's output has no two adjacent non-word characters. -/
theorem noAdjNonWord_replaceNWAux :
    ∀ (s : Str) (b : Bool), noAdjNonWord (replaceNWAux ['-'] b s) = true := by
  intro s
  induction s with
  | nil => intro b; rfl
  | cons d t ih =>
    intro b
    rw [replaceNWAux]
    by_cases hd : isWordChar d = true
    · rw [if_pos hd]
      exact noAdjNonWord_cons_word hd (ih false)
    · rw [if_neg hd]
      cases b with
      | true => simpa using ih true
      | false =>
        simp only [Bool.false_eq_true, if_false, List.singleton_append]
        rcases replaceNWAux_true_head t with h | ⟨c, t2, heq, hc⟩
        · rw [h]; rfl
        · rw [heq]
          have := heq ▸ ih true
          simp [noAdjNonWord, hc, this]

/-- `noAdjNonWord` holds of every all-word string. -/
theorem noAdjNonWord_of_all_word {l : Str}
    (h : ∀ c ∈ l, isWordChar c = true) : noAdjNonWord l = true := by
  induction l with
  | nil => rfl
  | cons a t ih =>
    exact noAdjNonWord_cons_word (h a (by simp))
      (ih (fun c hc => h c (by simp [hc])))

/-- `noAdjNonWord` survives a status-preserving character map. -/
theorem noAdjNonWord_map {f : Char → Char} :
    ∀ l : Str, (∀ c ∈ l, isWordChar (f c) = isWordChar c) →
      noAdjNonWord l = true → noAdjNonWord (l.map f) = true := by
  intro l
  induction l with
  | nil => intro _ _; rfl
  | cons a t ih =>
    intro hst hna
    cases t with
    | nil => rfl
    | cons b t2 =>
      have h1 : ((isWordChar a || isWordChar b) && noAdjNonWord (b :: t2)) = true :=
        hna
      have h12 := Bool.and_eq_true_iff.mp h1
      have h2 : noAdjNonWord (List.map f (b :: t2)) = true :=
        ih (fun c hc => hst c (List.mem_cons_of_mem a hc)) h12.2
      have ha := hst a (by simp)
      have hb := hst b (by simp [List.mem_cons])
      show ((isWordChar (f a) || isWordChar (f b)) &&
        noAdjNonWord (f b :: List.map f t2)) = true
      rw [Bool.and_eq_true_iff, ha, hb]
      exact ⟨h12.1, by simpa using h2⟩

/-- `noAdjNonWord` restricts to the left part of an append. -/
theorem noAdjNonWord_append_left :
    ∀ {a b : Str}, noAdjNonWord (a ++ b) = true → noAdjNonWord a = true := by
  intro a
  induction a with
  | nil => intro b _; rfl
  | cons x t ih =>
    intro b h
    cases t with
    | nil => rfl
    | cons y t2 =>
      have h1 : ((isWordChar x || isWordChar y) &&
          noAdjNonWord (y :: t2 ++ b)) = true := h
      have h12 := Bool.and_eq_true_iff.mp h1
      have h2 := ih (b := b) h12.2
      show ((isWordChar x || isWordChar y) && noAdjNonWord (y :: t2)) = true
      rw [Bool.and_eq_true_iff]
      exact ⟨h12.1, h2⟩

/-- Dropping while is idempotent. -/
theorem dropWhile_idem {p : Char → Bool} (l : Str) :
    (l.dropWhile p).dropWhile p = l.dropWhile p := by
  cases hd : l.dropWhile p with
  | nil => rfl
  | cons c t =>
    rw [List.dropWhile_cons, if_neg (by simp [dropWhile_eq_cons_head hd])]

/-- `trimTrailingDU` is idempotent. -/
theorem trimTrailingDU_idem (l : Str) :
    trimTrailingDU (trimTrailingDU l) = trimTrailingDU l := by
  unfold trimTrailingDU
  rw [List.reverse_reverse, dropWhile_idem]

/-- `trimTrailingDU` is a prefix of its argument. -/
theorem trimTrailingDU_front (l : Str) : trimTrailingDU l <+: l := by
  unfold trimTrailingDU
  refine List.reverse_suffix.mp ?_
  rw [List.reverse_reverse]
  exact List.dropWhile_suffix _

/-- A pointwise-fixed map is the identity. -/
theorem map_eq_self_of_fixed {f : Char → Char} :
    ∀ l : Str, (∀ c ∈ l, f c = c) → l.map f = l := by
  intro l h
  rw [List.map_congr_left h]
  exact List.map_id' l

/-- `dropWhile` of a list none of whose characters satisfy the predicate. -/
theorem dropWhile_eq_self_of_none {p : Char → Bool} {l : Str}
    (h : ∀ c ∈ l, p c = false) : l.dropWhile p = l := by
  cases l with
  | nil => rfl
  | cons a t => rw [List.dropWhile_cons, if_neg (by simp [h a (by simp)])]

/-- Word characters belong to the word-character list. -/
theorem isWordChar_mem {c : Char} (h : isWordChar c = true) : c ∈ wordChars := by
  simpa [isWordChar] using h

/-- Clean characters are fixed by lowercasing. -/
theorem cleanChars_lower_fixed (k : SlugifyCharacter) :
    (cleanChars k).all (fun c => Char.toLower c = c) = true := by
  cases k <;> decide

/-- Word characters and slugify-replacement characters lowercase into the
clean set. -/
theorem lower_into_clean (k : SlugifyCharacter) :
    (wordChars ++ slugifyCharStr k).all
      (fun c => Char.toLower c ∈ cleanChars k) = true := by
  cases k <;> decide

/-- Clean characters under the dash setting are word characters or `-`. -/
theorem cleanChars_dash_status :
    (cleanChars SlugifyCharacter.dash).all
      (fun c => isWordChar c || c = '-') = true := by
  decide

/-- Clean characters under the underscore and NONE settings are word
characters. -/
theorem cleanChars_nodash_word (k : SlugifyCharacter)
    (hk : k ≠ SlugifyCharacter.dash) :
    (cleanChars k).all isWordChar = true := by
  cases k with
  | dash => exact absurd rfl hk
  | underscore => decide
  | noneValue => decide

/-- Clean characters are not square brackets. -/
theorem cleanChars_not_bracket (k : SlugifyCharacter) :
    (cleanChars k).all (fun c => (¬ (c = '[' ∨ c = ']') : Bool)) = true := by
  cases k <;> decide

/-- Clean characters are not slashes. -/
theorem cleanChars_not_slash (k : SlugifyCharacter) :
    (cleanChars k).all (fun c => (¬ c = '/' : Bool)) = true := by
  cases k <;> decide

/-- No clean character lowercases to a dot. -/
theorem cleanChars_not_dot (k : SlugifyCharacter) :
    (cleanChars k).all (fun c => (¬ Char.toLower c = '.' : Bool)) = true := by
  cases k <;> decide

/-- Lowercasing preserves word-character status on the dash output
alphabet. -/
theorem lower_preserves_status :
    (wordChars ++ ['-']).all
      (fun c => isWordChar (Char.toLower c) = isWordChar c) = true := by
  decide

/-- Every character of a slugified title is clean. -/
theorem mem_slugifyTitle (k : SlugifyCharacter) (s : Str) :
    ∀ c ∈ slugifyTitle k s, c ∈ cleanChars k := by
  intro c hc
  unfold slugifyTitle at hc
  have hc2 : c ∈ toLowerStr (replaceNonWordRuns (slugifyCharStr k) s) :=
    (trimTrailingDU_front _).subset hc
  obtain ⟨d, hd, hdc⟩ := List.mem_map.mp hc2
  have hd2 : isWordChar d = true ∨ d ∈ slugifyCharStr k :=
    mem_replaceNWAux s false d hd
  have hd3 : d ∈ wordChars ++ slugifyCharStr k := by
    rcases hd2 with h | h
    · exact List.mem_append_left _ (isWordChar_mem h)
    · exact List.mem_append_right _ h
  have := List.all_eq_true.mp (lower_into_clean k) d hd3
  rw [← hdc]
  simpa using this

/-- The characters of the dash scanner's output lie in the dash output
alphabet. -/
theorem mem_replaceNWAux_dash {s : Str} {b : Bool} :
    ∀ c ∈ replaceNWAux ['-'] b s, c ∈ wordChars ++ ['-'] := by
  intro c hc
  rcases mem_replaceNWAux s b c hc with h | h
  · exact List.mem_append_left _ (isWordChar_mem h)
  · exact List.mem_append_right _ h

/-- A slugified title has no two adjacent non-word characters. -/
theorem slugifyTitle_noAdj (k : SlugifyCharacter) (s : Str) :
    noAdjNonWord (slugifyTitle k s) = true := by
  by_cases hk : k = SlugifyCharacter.dash
  · subst hk
    have h1 : noAdjNonWord
        (replaceNonWordRuns (slugifyCharStr SlugifyCharacter.dash) s) = true :=
      noAdjNonWord_replaceNWAux s false
    have h2 : noAdjNonWord
        (toLowerStr (replaceNonWordRuns (slugifyCharStr SlugifyCharacter.dash) s)) =
        true := by
      refine noAdjNonWord_map _ ?_ h1
      intro c hc
      have hmem : c ∈ wordChars ++ ['-'] := mem_replaceNWAux_dash c hc
      have := List.all_eq_true.mp lower_preserves_status c hmem
      simpa using this
    obtain ⟨u, hu⟩ := trimTrailingDU_front
      (toLowerStr (replaceNonWordRuns (slugifyCharStr SlugifyCharacter.dash) s))
    unfold slugifyTitle
    exact noAdjNonWord_append_left (hu ▸ h2)
  · refine noAdjNonWord_of_all_word ?_
    intro c hc
    have := List.all_eq_true.mp (cleanChars_nodash_word k hk) c
      (mem_slugifyTitle k s c hc)
    simpa using this

/-- `trimTrailingDU` fixes a slugified title. -/
theorem slugifyTitle_trim_fixed (k : SlugifyCharacter) (s : Str) :
    trimTrailingDU (slugifyTitle k s) = slugifyTitle k s := by
  unfold slugifyTitle
  exact trimTrailingDU_idem _

/-- The replacement scanner fixes all-word strings. -/
theorem replaceNWAux_fixed_all_word {rep : Str} :
    ∀ {t : Str}, (∀ c ∈ t, isWordChar c = true) → ∀ b, replaceNWAux rep b t = t := by
  intro t
  induction t with
  | nil => intro _ b; rfl
  | cons a t2 ih =>
    intro h b
    rw [replaceNWAux, if_pos (h a (by simp)),
      ih (fun c hc => h c (by simp [hc])) false]

/-- The dash scanner fixes strings of word characters and isolated
dashes. -/
theorem replaceNWAux_fixed_dash :
    ∀ {t : Str}, (∀ c ∈ t, isWordChar c = true ∨ c = '-') →
      noAdjNonWord t = true → replaceNWAux ['-'] false t = t := by
  intro t
  induction t with
  | nil => intro _ _; rfl
  | cons a t2 ih =>
    intro hch hadj
    by_cases ha : isWordChar a = true
    · rw [replaceNWAux, if_pos ha,
        ih (fun c hc => hch c (by simp [hc])) (noAdjNonWord_tail hadj)]
    · have ha2 : a = '-' := (hch a (by simp)).resolve_left ha
      subst ha2
      rw [replaceNWAux, if_neg ha]
      simp only [Bool.false_eq_true, if_false]
      cases t2 with
      | nil => rfl
      | cons d t3 =>
        have hd : isWordChar d = true := by
          have h1 : ((isWordChar '-' || isWordChar d) &&
              noAdjNonWord (d :: t3)) = true := hadj
          have := (Bool.and_eq_true_iff.mp h1).1
          rcases Bool.or_eq_true_iff.mp this with h | h
          · exact absurd h (by decide)
          · exact h
        have heq : replaceNWAux ['-'] true (d :: t3) =
            replaceNWAux ['-'] false (d :: t3) := by
          rw [replaceNWAux, replaceNWAux, if_pos hd, if_pos hd]
        rw [heq, ih (fun c hc => hch c (by simp [hc])) (noAdjNonWord_tail hadj)]
        rfl

/-- `stripExtension` fixes strings without a (lowercased) dot. -/
theorem stripExtension_fixed_of_no_dot {t : Str}
    (hdot : ∀ c ∈ t, ¬ Char.toLower c = '.') : stripExtension t = t := by
  have hext : ∀ ext : Str, '.' ∈ toLowerStr ext → endsWithCI t ext = false := by
    intro ext hdot2
    by_contra hcontra
    rw [Bool.not_eq_false] at hcontra
    have hsuf := List.isSuffixOf_iff_suffix.mp hcontra
    have hmem : '.' ∈ toLowerStr t := hsuf.subset hdot2
    obtain ⟨d, hd, hdl⟩ := List.mem_map.mp hmem
    exact (hdot d hd) hdl
  rw [stripExtension, hext ((".md").toList) (by decide),
    hext ((".markdown").toList) (by decide), hext ((".mdx").toList) (by decide),
    hext ((".fountain").toList) (by decide)]
  rfl

/-- `slugifyTitle` fixes clean, adjacently-well-formed, trimmed strings. -/
theorem slugifyTitle_fixed (k : SlugifyCharacter) {t : Str}
    (hclean : ∀ c ∈ t, c ∈ cleanChars k)
    (hadj : noAdjNonWord t = true)
    (htrim : trimTrailingDU t = t) : slugifyTitle k t = t := by
  have hrep : replaceNonWordRuns (slugifyCharStr k) t = t := by
    by_cases hk : k = SlugifyCharacter.dash
    · subst hk
      refine replaceNWAux_fixed_dash ?_ hadj
      intro c hc
      have := List.all_eq_true.mp cleanChars_dash_status c (hclean c hc)
      rcases Bool.or_eq_true_iff.mp this with h | h
      · exact Or.inl h
      · exact Or.inr (by simpa using h)
    · refine replaceNWAux_fixed_all_word ?_ false
      intro c hc
      have := List.all_eq_true.mp (cleanChars_nodash_word k hk) c (hclean c hc)
      simpa using this
  have hlow : toLowerStr t = t := by
    refine map_eq_self_of_fixed t ?_
    intro c hc
    have := List.all_eq_true.mp (cleanChars_lower_fixed k) c (hclean c hc)
    simpa using this
  unfold slugifyTitle
  rw [hrep, hlow, htrim]

/-- `removeBrackets` fixes clean strings. -/
theorem removeBrackets_fixed (k : SlugifyCharacter) {t : Str}
    (hclean : ∀ c ∈ t, c ∈ cleanChars k) : removeBrackets t = t := by
  refine List.filter_eq_self.mpr ?_
  intro c hc
  have := List.all_eq_true.mp (cleanChars_not_bracket k) c (hclean c hc)
  simpa using this

/-- `basenameL` fixes clean strings (no slash appears). -/
theorem basenameL_fixed (k : SlugifyCharacter) {t : Str}
    (hclean : ∀ c ∈ t, c ∈ cleanChars k) : basenameL t = t := by
  unfold basenameL
  have hslash : ∀ c ∈ t.reverse, decide (c = '/') = false := by
    intro c hc
    have := List.all_eq_true.mp (cleanChars_not_slash k) c
      (hclean c (List.mem_reverse.mp hc))
    simpa using this
  rw [dropWhile_eq_self_of_none hslash,
    List.takeWhile_eq_self_iff.mpr ?_, List.reverse_reverse]
  intro c hc
  have := List.all_eq_true.mp (cleanChars_not_slash k) c
    (hclean c (List.mem_reverse.mp hc))
  simpa using this

/-- `stripExtension` fixes clean strings (no dot appears). -/
theorem stripExtension_fixed (k : SlugifyCharacter) {t : Str}
    (hclean : ∀ c ∈ t, c ∈ cleanChars k) : stripExtension t = t := by
  refine stripExtension_fixed_of_no_dot ?_
  intro c hc
  have := List.all_eq_true.mp (cleanChars_not_dot k) c (hclean c hc)
  simpa using this

/-! ## Occurrence-search equivalence lemmas -/

/-- `isNonWs` is the negation of `isJsWs`. -/
theorem isNonWs_true {c : Char} : isNonWs c = true ↔ isJsWs c = false := by
  simp [isNonWs]

/-- `isNonWs` is the negation of `isJsWs` (false side). -/
theorem isNonWs_false {c : Char} : isNonWs c = false ↔ isJsWs c = true := by
  simp [isNonWs]

/-- The remainder processed by the next `splitSpyF` step is shorter. -/
theorem splitSpy_rest_lt {s : Str}
    (h : (s.dropWhile isJsWs).dropWhile isNonWs ≠ []) :
    (((s.dropWhile isJsWs).dropWhile isNonWs).dropWhile isJsWs).length <
      s.length := by
  obtain ⟨c, t, hct⟩ := List.exists_cons_of_ne_nil h
  have hc : isJsWs c = true := isNonWs_false.mp (dropWhile_eq_cons_head hct)
  calc (((s.dropWhile isJsWs).dropWhile isNonWs).dropWhile isJsWs).length
      = ((c :: t).dropWhile isJsWs).length := by rw [hct]
    _ = (t.dropWhile isJsWs).length := by rw [List.dropWhile_cons, if_pos hc]
    _ ≤ t.length := (List.dropWhile_sublist _).length_le
    _ < (c :: t).length := by simp
    _ = ((s.dropWhile isJsWs).dropWhile isNonWs).length := by rw [hct]
    _ ≤ (s.dropWhile isJsWs).length := (List.dropWhile_sublist _).length_le
    _ ≤ s.length := (List.dropWhile_sublist _).length_le

/-- The remainder processed by the next `wordsFromF` step is shorter. -/
theorem wordsFrom_rest_lt {s : Str}
    (h : (s.dropWhile isJsWs).takeWhile isNonWs ≠ []) :
    ((s.dropWhile isJsWs).dropWhile isNonWs).length < s.length := by
  obtain ⟨c, t, hct, hc⟩ := takeWhile_ne_nil_head h
  calc ((s.dropWhile isJsWs).dropWhile isNonWs).length
      = ((c :: t).dropWhile isNonWs).length := by rw [hct]
    _ = (t.dropWhile isNonWs).length := by rw [List.dropWhile_cons, if_pos hc]
    _ ≤ t.length := (List.dropWhile_sublist _).length_le
    _ < (c :: t).length := by simp
    _ = (s.dropWhile isJsWs).length := by rw [hct]
    _ ≤ s.length := (List.dropWhile_sublist _).length_le

/-- `splitSpyF` does not depend on the fuel once it covers the length. -/
theorem splitSpyF_irrel :
    ∀ (f1 f2 : Nat) (s : Str), s.length < f1 → s.length < f2 →
      splitSpyF f1 s = splitSpyF f2 s := by
  intro f1
  induction f1 with
  | zero => intro f2 s h1; exact absurd h1 (by omega)
  | succ g ih =>
    intro f2 s h1 h2
    cases f2 with
    | zero => exact absurd h2 (by omega)
    | succ g2 =>
      rw [splitSpyF, splitSpyF]
      by_cases hc : (s.dropWhile isJsWs).dropWhile isNonWs = []
      · rw [if_pos hc, if_pos hc]
      · rw [if_neg hc, if_neg hc]
        have hlt := splitSpy_rest_lt hc
        rw [ih g2 _ (by omega) (by omega)]

/-- `wordsFromF` does not depend on the fuel once it covers the length. -/
theorem wordsFromF_irrel :
    ∀ (f1 f2 : Nat) (s : Str) (col : Nat), s.length < f1 → s.length < f2 →
      wordsFromF f1 s col = wordsFromF f2 s col := by
  intro f1
  induction f1 with
  | zero => intro f2 s col h1; exact absurd h1 (by omega)
  | succ g ih =>
    intro f2 s col h1 h2
    cases f2 with
    | zero => exact absurd h2 (by omega)
    | succ g2 =>
      rw [wordsFromF, wordsFromF]
      by_cases hc : (s.dropWhile isJsWs).takeWhile isNonWs = []
      · rw [if_pos hc, if_pos hc]
      · rw [if_neg hc, if_neg hc]
        have hlt := wordsFrom_rest_lt hc
        rw [ih g2 _ _ (by omega) (by omega)]

/-- The unfolding equation of `splitSpy`. -/
theorem splitSpy_eq (s : Str) :
    splitSpy s =
      if (s.dropWhile isJsWs).dropWhile isNonWs = [] then [s]
      else
        s.takeWhile isJsWs ::
          ((s.dropWhile isJsWs).takeWhile isNonWs ++
            ((s.dropWhile isJsWs).dropWhile isNonWs).takeWhile isJsWs) ::
          splitSpy (((s.dropWhile isJsWs).dropWhile isNonWs).dropWhile isJsWs) := by
  unfold splitSpy
  rw [splitSpyF]
  by_cases hc : (s.dropWhile isJsWs).dropWhile isNonWs = []
  · rw [if_pos hc, if_pos hc]
  · rw [if_neg hc, if_neg hc]
    have hlt := splitSpy_rest_lt hc
    congr 2
    exact splitSpyF_irrel _ _ _ (by omega) (by omega)

/-- The unfolding equation of `wordsFrom`. -/
theorem wordsFrom_eq (s : Str) (col : Nat) :
    wordsFrom s col =
      if (s.dropWhile isJsWs).takeWhile isNonWs = [] then []
      else
        (col + (s.takeWhile isJsWs).length,
            (s.dropWhile isJsWs).takeWhile isNonWs) ::
          wordsFrom ((s.dropWhile isJsWs).dropWhile isNonWs)
            (col + (s.takeWhile isJsWs).length +
              ((s.dropWhile isJsWs).takeWhile isNonWs).length) := by
  unfold wordsFrom
  rw [wordsFromF]
  by_cases hc : (s.dropWhile isJsWs).takeWhile isNonWs = []
  · rw [if_pos hc, if_pos hc]
  · rw [if_neg hc, if_neg hc]
    have hlt := wordsFrom_rest_lt hc
    congr 1
    exact wordsFromF_irrel _ _ _ _ (by omega) (by omega)

/-- `takeWhile` walks through an all-satisfying prefix. -/
theorem takeWhile_append_all {p : Char → Bool} :
    ∀ {a : Str} (b : Str), (∀ c ∈ a, p c = true) →
      (a ++ b).takeWhile p = a ++ b.takeWhile p := by
  intro a
  induction a with
  | nil => intro b _; rfl
  | cons x t ih =>
    intro b h
    rw [List.cons_append, List.takeWhile_cons, if_pos (h x (by simp)),
      ih b (fun c hc => h c (by simp [hc])), List.cons_append]

/-- `dropWhile` consumes an all-satisfying prefix. -/
theorem dropWhile_append_all {p : Char → Bool} :
    ∀ {a : Str} (b : Str), (∀ c ∈ a, p c = true) →
      (a ++ b).dropWhile p = b.dropWhile p := by
  intro a
  induction a with
  | nil => intro b _; rfl
  | cons x t ih =>
    intro b h
    rw [List.cons_append, List.dropWhile_cons, if_pos (h x (by simp)),
      ih b (fun c hc => h c (by simp [hc]))]

/-- `dropWhile` of an all-satisfying list is empty. -/
theorem dropWhile_eq_nil_of_all {p : Char → Bool} :
    ∀ {l : Str}, (∀ c ∈ l, p c = true) → l.dropWhile p = [] := by
  intro l
  induction l with
  | nil => intro _; rfl
  | cons x t ih =>
    intro h
    rw [List.dropWhile_cons, if_pos (h x (by simp))]
    exact ih (fun c hc => h c (by simp [hc]))

/-- Trimming a whitespace-word-whitespace chunk yields the word. -/
theorem trimL_decomp {p w u : Str}
    (hp : ∀ c ∈ p, isJsWs c = true) (hw : ∀ c ∈ w, isJsWs c = false)
    (hsp : ∀ c ∈ u, isJsWs c = true) : trimL (p ++ w ++ u) = w := by
  unfold trimL
  rw [List.append_assoc, dropWhile_append_all _ hp]
  cases w with
  | nil =>
    rw [List.nil_append, dropWhile_eq_nil_of_all hsp]
    rfl
  | cons x t =>
    rw [List.cons_append, List.dropWhile_cons,
      if_neg (by simp [hw x (by simp)]), ← List.cons_append, List.reverse_append,
      dropWhile_append_all _ (fun c hc => hsp c (List.mem_reverse.mp hc)),
      dropWhile_eq_self_of_none
        (fun c hc => hw c (List.mem_reverse.mp hc)),
      List.reverse_reverse]

/-- The left-trim of a whitespace-word-whitespace chunk. -/
theorem trimLeftL_decomp {p w u : Str}
    (hp : ∀ c ∈ p, isJsWs c = true) (hw : ∀ c ∈ w, isJsWs c = false)
    (hsp : ∀ c ∈ u, isJsWs c = true) :
    trimLeftL (p ++ w ++ u) = if w = [] then [] else w ++ u := by
  unfold trimLeftL
  rw [List.append_assoc, dropWhile_append_all _ hp]
  cases w with
  | nil =>
    rw [if_pos rfl, List.nil_append, dropWhile_eq_nil_of_all hsp]
  | cons x t =>
    rw [if_neg (by simp), List.cons_append, List.dropWhile_cons,
      if_neg (by simp [hw x (by simp)])]

/-- Words absorb a leading all-whitespace prefix, shifting columns. -/
theorem wordsFrom_ws_front {sp : Str} (hsp : ∀ c ∈ sp, isJsWs c = true)
    (t : Str) (col : Nat) :
    wordsFrom (sp ++ t) col = wordsFrom t (col + sp.length) := by
  rw [wordsFrom_eq, wordsFrom_eq (s := t),
    dropWhile_append_all _ hsp, takeWhile_append_all _ hsp]
  by_cases hc : (t.dropWhile isJsWs).takeWhile isNonWs = []
  · rw [if_pos hc, if_pos hc]
  · rw [if_neg hc, if_neg hc]
    rw [List.length_append]
    congr 1
    · congr 1
      omega
    · congr 1
      omega

/-- All-whitespace strings trim to nothing. -/
theorem trimL_of_all_ws {s : Str} (h : ∀ c ∈ s, isJsWs c = true) :
    trimL s = [] := by
  unfold trimL
  rw [dropWhile_eq_nil_of_all h]
  rfl

/-- The scanner loop over the chunk pieces agrees with the
specification's word list, line by line. -/
theorem chunkScan_splitSpy {q : Str} (hq : q ≠ []) :
    ∀ (n : Nat) (s : Str) (ln col : Nat), s.length ≤ n →
      chunkScan q ln col (splitSpy s) =
        (wordsFrom s col).filterMap (fun cw =>
          if cw.2 = q then
            some ⟨⟨ln, cw.1⟩, ⟨ln, cw.1 + cw.2.length⟩⟩
          else none) := by
  intro n
  induction n with
  | zero =>
    intro s ln col hsn
    have hs : s = [] := List.length_eq_zero.mp (Nat.le_zero.mp hsn)
    subst hs
    rw [splitSpy_eq, wordsFrom_eq]
    simp [chunkScan, trimL_of_all_ws (s := []) (by simp), Ne.symm hq]
  | succ m ih =>
    intro s ln col hsn
    have hpws : ∀ c ∈ s.takeWhile isJsWs, isJsWs c = true :=
      fun c hc => List.mem_takeWhile_imp hc
    have hwnws : ∀ c ∈ (s.dropWhile isJsWs).takeWhile isNonWs, isJsWs c = false :=
      fun c hc => isNonWs_true.mp (List.mem_takeWhile_imp hc)
    rw [splitSpy_eq, wordsFrom_eq]
    by_cases hc : (s.dropWhile isJsWs).dropWhile isNonWs = []
    · rw [if_pos hc]
      by_cases hw : (s.dropWhile isJsWs).takeWhile isNonWs = []
      · rw [if_pos hw]
        have hrnil : s.dropWhile isJsWs = [] := by
          have h0 := List.takeWhile_append_dropWhile isNonWs (s.dropWhile isJsWs)
          rw [hw, hc, List.nil_append] at h0
          exact h0.symm
        have hdecomp : s.takeWhile isJsWs = s := by
          have h0 := List.takeWhile_append_dropWhile isJsWs s
          rwa [hrnil, List.append_nil] at h0
        have hsws : ∀ c ∈ s, isJsWs c = true := by
          intro c hcm
          exact hpws c (by rw [hdecomp]; exact hcm)
        simp [chunkScan, trimL_of_all_ws hsws, Ne.symm hq]
      · rw [if_neg hw]
        have hr2 : s.dropWhile isJsWs = (s.dropWhile isJsWs).takeWhile isNonWs := by
          have h0 := List.takeWhile_append_dropWhile isNonWs (s.dropWhile isJsWs)
          rw [hc, List.append_nil] at h0
          exact h0.symm
        have hsplit : s =
            s.takeWhile isJsWs ++ (s.dropWhile isJsWs).takeWhile isNonWs := by
          conv_lhs => rw [← List.takeWhile_append_dropWhile isJsWs s]
          rw [← hr2]
        have htr : trimL s = (s.dropWhile isJsWs).takeWhile isNonWs := by
          have h0 := trimL_decomp (u := []) hpws hwnws (by simp)
          simp only [List.append_nil] at h0
          rw [← hsplit] at h0
          exact h0
        have htl : trimLeftL s = (s.dropWhile isJsWs).takeWhile isNonWs := by
          have h0 := trimLeftL_decomp (u := []) hpws hwnws (by simp)
          simp only [List.append_nil] at h0
          rw [if_neg hw] at h0
          rw [← hsplit] at h0
          exact h0
        have hlen : s.length =
            (s.takeWhile isJsWs).length +
              ((s.dropWhile isJsWs).takeWhile isNonWs).length := by
          conv_lhs => rw [hsplit]
          rw [List.length_append]
        rw [hc, wordsFrom_eq]
        simp only [List.dropWhile_nil, List.takeWhile_nil, if_pos]
        simp only [chunkScan, htr, htl, hlen, Nat.add_sub_cancel,
          List.filterMap_cons, List.filterMap_nil, List.append_nil]
        by_cases hwq : (s.dropWhile isJsWs).takeWhile isNonWs = q
        · simp [hwq]
        · simp [hwq]
    · rw [if_neg hc]
      have hwne : (s.dropWhile isJsWs).takeWhile isNonWs ≠ [] := by
        intro hwnil
        cases hr : s.dropWhile isJsWs with
        | nil => rw [hr] at hc; simp at hc
        | cons d t =>
          have hdn : isNonWs d = true :=
            isNonWs_true.mpr (dropWhile_eq_cons_head hr)
          rw [hr, List.takeWhile_cons, if_pos hdn] at hwnil
          simp at hwnil
      rw [if_neg hwne]
      have hspws : ∀ c ∈ ((s.dropWhile isJsWs).dropWhile isNonWs).takeWhile isJsWs,
          isJsWs c = true := fun c hc2 => List.mem_takeWhile_imp hc2
      have htrp : trimL (s.takeWhile isJsWs) = [] := trimL_of_all_ws hpws
      have htrw : trimL ((s.dropWhile isJsWs).takeWhile isNonWs ++
          ((s.dropWhile isJsWs).dropWhile isNonWs).takeWhile isJsWs) =
          (s.dropWhile isJsWs).takeWhile isNonWs := by
        have h0 := trimL_decomp (p := []) (by simp) hwnws hspws
        rwa [List.nil_append] at h0
      have htlw : trimLeftL ((s.dropWhile isJsWs).takeWhile isNonWs ++
          ((s.dropWhile isJsWs).dropWhile isNonWs).takeWhile isJsWs) =
          (s.dropWhile isJsWs).takeWhile isNonWs ++
            ((s.dropWhile isJsWs).dropWhile isNonWs).takeWhile isJsWs := by
        have h0 := trimLeftL_decomp (p := []) (by simp) hwnws hspws
        rwa [List.nil_append, if_neg hwne] at h0
      have hr2split : (s.dropWhile isJsWs).dropWhile isNonWs =
          ((s.dropWhile isJsWs).dropWhile isNonWs).takeWhile isJsWs ++
            (((s.dropWhile isJsWs).dropWhile isNonWs).dropWhile isJsWs) :=
        (List.takeWhile_append_dropWhile isJsWs _).symm
      have habsorb : wordsFrom ((s.dropWhile isJsWs).dropWhile isNonWs)
          (col + (s.takeWhile isJsWs).length +
            ((s.dropWhile isJsWs).takeWhile isNonWs).length) =
          wordsFrom (((s.dropWhile isJsWs).dropWhile isNonWs).dropWhile isJsWs)
            (col + (s.takeWhile isJsWs).length +
              ((s.dropWhile isJsWs).takeWhile isNonWs).length +
              (((s.dropWhile isJsWs).dropWhile isNonWs).takeWhile isJsWs).length) := by
        conv_lhs => rw [hr2split]
        exact wordsFrom_ws_front hspws _ _
      have hrest := ih (((s.dropWhile isJsWs).dropWhile isNonWs).dropWhile isJsWs)
        ln (col + (s.takeWhile isJsWs).length +
          (((s.dropWhile isJsWs).takeWhile isNonWs).length +
            (((s.dropWhile isJsWs).dropWhile isNonWs).takeWhile isJsWs).length))
        (by have := splitSpy_rest_lt hc; omega)
      simp only [chunkScan, htrp, htrw, htlw, List.length_append,
        List.filterMap_cons, Nat.sub_self, Nat.add_zero]
      rw [if_neg (Ne.symm hq)]
      rw [hrest, habsorb]
      rw [show col + (s.takeWhile isJsWs).length +
          (((s.dropWhile isJsWs).takeWhile isNonWs).length +
            (((s.dropWhile isJsWs).dropWhile isNonWs).takeWhile isJsWs).length) =
          col + (s.takeWhile isJsWs).length +
            ((s.dropWhile isJsWs).takeWhile isNonWs).length +
            (((s.dropWhile isJsWs).dropWhile isNonWs).takeWhile isJsWs).length
        from by omega]
      by_cases hwq : (s.dropWhile isJsWs).takeWhile isNonWs = q
      · simp [hwq]
      · simp [hwq]

/-- The source's range scan equals the specification's word-per-line scan
for any non-empty query. -/
theorem rangesForWord_spec {q : Str} (hq : q ≠ []) (data : Str) :
    rangesForWordInDocumentData (some q) data = specOccurrenceRanges q data := by
  simp only [rangesForWordInDocumentData, specOccurrenceRanges, if_neg hq]
  congr 1
  exact mapIdxL_congr
    (fun i line => chunkScan_splitSpy hq line.length line i 0 le_rfl) 0 _

/-! ## Claim theorems -/

/-- C1: for every WikiLink token and referencing document, the modular
definition provider follows the ordered policy and stops at the first
non-empty step: under `uniqueFilenames` it first collects every corpus note
file whose name fuzzy-matches the token text (under any other convention
this step collects nothing); only when that set is empty does it resolve the
token text against the referencing document's directory, a file existing at
that absolute path being the sole match; only when both steps are empty is
note synthesis attempted. -/
theorem provideDefinition_ordered_policy (cfg : Config) (allFiles : List Str)
    (fs : FsState) (resolveP : Str → Str → Str) (activeFileName : Option Str)
    (docPath : Str) (ref : ContextWord)
    (href : ref.type = ContextWordType.WikiLink) :
    ((if useUniqueFilenames cfg then
        (noteFilesOf allFiles).filter
          (fun f => noteNamesFuzzyMatch cfg.slugifyCharacter f ref.word)
      else []) ≠ [] →
      provideDefinition cfg allFiles fs resolveP activeFileName docPath ref =
        ⟨((if useUniqueFilenames cfg then
            (noteFilesOf allFiles).filter
              (fun f => noteNamesFuzzyMatch cfg.slugifyCharacter f ref.word)
          else []).map (fun f => (f, ⟨0, 0⟩))), fs, [], useUniqueFilenames cfg, false⟩) ∧
    ((if useUniqueFilenames cfg then
        (noteFilesOf allFiles).filter
          (fun f => noteNamesFuzzyMatch cfg.slugifyCharacter f ref.word)
      else []) = [] →
      fsExists fs (resolveP (dirnameL docPath) ref.word) = true →
      provideDefinition cfg allFiles fs resolveP activeFileName docPath ref =
        ⟨[(resolveP (dirnameL docPath) ref.word, ⟨0, 0⟩)], fs, [],
          useUniqueFilenames cfg, true⟩) ∧
    ((if useUniqueFilenames cfg then
        (noteFilesOf allFiles).filter
          (fun f => noteNamesFuzzyMatch cfg.slugifyCharacter f ref.word)
      else []) = [] →
      fsExists fs (resolveP (dirnameL docPath) ref.word) = false →
      provideDefinition cfg allFiles fs resolveP activeFileName docPath ref =
        ⟨((createMissingNote cfg activeFileName ref fs).path.elim []
            (fun p => [(p, ⟨0, 0⟩)])),
          (createMissingNote cfg activeFileName ref fs).fs,
          (createMissingNote cfg activeFileName ref fs).warnings,
          useUniqueFilenames cfg, true⟩) := by
  refine ⟨?_, ?_, ?_⟩
  · intro h1
    simp only [provideDefinition, href, ne_eq, not_true_eq_false, if_false, if_neg h1]
    simp [h1]
  · intro h1 h2
    simp only [provideDefinition, href, ne_eq, not_true_eq_false, if_false, h1, if_pos rfl,
      h2, if_true]
    simp
  · intro h1 h2
    simp only [provideDefinition, href, ne_eq, not_true_eq_false, if_false, h1, if_pos rfl,
      h2, if_true]
    simp

/-- C1 witness: a concrete corpus where the fuzzy step matches, instantiating
the first conjunct at that corpus. -/
theorem provideDefinition_ordered_policy_witness :
    provideDefinition
        ⟨true, ("md").toList, SlugifyCharacter.dash,
          WorkspaceFilenameConvention.uniqueFilenames⟩
        [("notes/My-Note.md").toList] ⟨[]⟩ (fun d r => d ++ '/' :: r) none
        (("notes/doc.md").toList)
        ⟨ContextWordType.WikiLink, ("my note").toList, some false, none⟩ =
      ⟨[(("notes/My-Note.md").toList, ⟨0, 0⟩)], ⟨[]⟩, [], true, false⟩ :=
  (provideDefinition_ordered_policy
      ⟨true, ("md").toList, SlugifyCharacter.dash,
        WorkspaceFilenameConvention.uniqueFilenames⟩
      [("notes/My-Note.md").toList] ⟨[]⟩ (fun d r => d ++ '/' :: r) none
      (("notes/doc.md").toList)
      ⟨ContextWordType.WikiLink, ("my note").toList, some false, none⟩ rfl).1
    (by decide)

/-- C5: whenever note synthesis is requested for a missing WikiLink target
(create-on-missing enabled, an active editor present) and the naming
convention is not `uniqueFilenames`, the operation is refused atomically: the
ambiguous-convention warning is surfaced, no file is written, no path is
returned, and the filesystem is unchanged. -/
theorem createMissingNote_refuses_relative_convention (cfg : Config)
    (f : Str) (ref : ContextWord) (fs : FsState)
    (h1 : ref.type = ContextWordType.WikiLink)
    (h2 : cfg.createNoteOnGoToDefinitionWhenMissing = true)
    (h3 : useUniqueFilenames cfg = false) :
    createMissingNote cfg (some f) ref fs =
      ⟨none, fs, [Warning.ambiguousConvention]⟩ := by
  simp [createMissingNote, h1, h2, h3]

/-- C5 witness: the refusal at a concrete configuration and token. -/
theorem createMissingNote_refuses_relative_convention_witness :
    createMissingNote
        ⟨true, ("md").toList, SlugifyCharacter.dash,
          WorkspaceFilenameConvention.relativePaths⟩
        (some (("notes/doc.md").toList))
        ⟨ContextWordType.WikiLink, ("target").toList, some false, none⟩ ⟨[]⟩ =
      ⟨none, ⟨[]⟩, [Warning.ambiguousConvention]⟩ :=
  createMissingNote_refuses_relative_convention
    ⟨true, ("md").toList, SlugifyCharacter.dash,
      WorkspaceFilenameConvention.relativePaths⟩
    (("notes/doc.md").toList)
    ⟨ContextWordType.WikiLink, ("target").toList, some false, none⟩ ⟨[]⟩
    rfl rfl (by decide)

/-- C7: the process-wide tag candidate set is populated at most once — a
second `initSet` call (one arriving after `STARTED_INIT` is set) returns
immediately, starting no scan and leaving the state untouched — and across
the life of the process the set only grows: no event of the tag-list state
machine ever removes an element. -/
theorem tagList_init_once_and_grows (s : TagListState)
    (hstarted : s.startedInit = true) :
    (∀ corpus, tagStep s (TagEvent.initCall corpus) = (s, false)) ∧
    (∀ e : TagEvent, ∀ t ∈ s.tagWordSet, t ∈ (tagStep s e).1.tagWordSet) := by
  constructor
  · intro corpus
    simp [tagStep, hstarted]
  · intro e t ht
    cases e with
    | initCall corpus =>
      simp only [tagStep]
      split
      · exact ht
      · exact ht
    | fileRead data =>
      simpa [tagStep] using mem_foldl_tagSetAdd (tagsInData data) s.tagWordSet t ht

/-- C7 witness: a started state with one tag; the second init call is a
no-op and the tag survives a file-read event. -/
theorem tagList_init_once_and_grows_witness :
    (∀ corpus,
      tagStep ⟨true, true, [("#urgent").toList]⟩ (TagEvent.initCall corpus) =
        (⟨true, true, [("#urgent").toList]⟩, false)) ∧
    (∀ e : TagEvent, ∀ t ∈ [("#urgent").toList],
      t ∈ (tagStep ⟨true, true, [("#urgent").toList]⟩ e).1.tagWordSet) :=
  tagList_init_once_and_grows ⟨true, true, [("#urgent").toList]⟩ rfl

/-- C8: in the monolithic definition provider, a WikiLink token whose
`hasExtension` flag is not true makes `provideDefinition` return the empty
list immediately: the corpus is not enumerated, the relative-path lookup is
not attempted, no warning is raised and the filesystem (hence note creation)
is untouched. -/
theorem provideDefinitionMono_requires_extension (cfg : Config)
    (allFiles : List Str) (fs : FsState) (resolveP : Str → Str → Str)
    (activeFileName : Option Str) (docPath : Str) (contextWord : ContextWord)
    (h1 : contextWord.type = ContextWordType.WikiLink)
    (h2 : contextWord.hasExtension ≠ some true) :
    provideDefinitionMono cfg allFiles fs resolveP activeFileName docPath
        contextWord = ⟨[], fs, [], false, false⟩ := by
  simp [provideDefinitionMono, h1, h2]

/-- C8 witness: a WikiLink token without extension at a concrete corpus. -/
theorem provideDefinitionMono_requires_extension_witness :
    provideDefinitionMono
        ⟨true, ("md").toList, SlugifyCharacter.dash,
          WorkspaceFilenameConvention.uniqueFilenames⟩
        [("wiki-link.md").toList] ⟨[]⟩ (fun d r => d ++ '/' :: r) none
        (("doc.md").toList)
        ⟨ContextWordType.WikiLink, ("wiki-link").toList, some false, none⟩ =
      ⟨[], ⟨[]⟩, [], false, false⟩ :=
  provideDefinitionMono_requires_extension
    ⟨true, ("md").toList, SlugifyCharacter.dash,
      WorkspaceFilenameConvention.uniqueFilenames⟩
    [("wiki-link.md").toList] ⟨[]⟩ (fun d r => d ++ '/' :: r) none
    (("doc.md").toList)
    ⟨ContextWordType.WikiLink, ("wiki-link").toList, some false, none⟩
    rfl (by decide)

/-- C9: in `ReferenceSearch.search` the empty-result branch for tokens that
are neither Tag nor WikiLink is dead — the type test is an assignment, so
every non-Tag token gets the query `[[basename(word)]]`; in particular the
Null token (empty word) is searched as the literal string `[[]]` and, on a
corpus containing that word, returns an occurrence instead of the empty
list. -/
theorem searchQuery_nonTag_wikiQuery (contextWord : ContextWord)
    (h : contextWord.type ≠ ContextWordType.Tag) :
    searchQuery contextWord =
      '[' :: '[' :: (basenameL contextWord.word ++ [']', ']']) ∧
    search [(("f.md").toList, ("x [[]] y").toList)] NULL_CONTEXT_WORD =
      [⟨("f.md").toList, ⟨⟨0, 2⟩, ⟨0, 6⟩⟩⟩] := by
  constructor
  · simp [searchQuery, h]
  · decide

/-- C9 witness: the Null token is not a Tag and gets the wiki-link query. -/
theorem searchQuery_nonTag_wikiQuery_witness :
    searchQuery NULL_CONTEXT_WORD =
      '[' :: '[' :: (basenameL NULL_CONTEXT_WORD.word ++ [']', ']']) ∧
    search [(("f.md").toList, ("x [[]] y").toList)] NULL_CONTEXT_WORD =
      [⟨("f.md").toList, ⟨⟨0, 2⟩, ⟨0, 6⟩⟩⟩] :=
  searchQuery_nonTag_wikiQuery NULL_CONTEXT_WORD (by decide)

/-- C10: the new-note command never overwrites an existing file — when the
computed target path exists, nothing is written, the filesystem (hence the
existing file's content) is unchanged and the file is only opened; a write
happens exactly when the target path does not exist. -/
theorem newNote_never_overwrites (cfg : Config) (workspaceUri : Str)
    (fs : FsState) (name : Str)
    (hvalid : ¬ (name = [] ∨ stripAllWs name = [])) :
    (fsExists fs (joinPath workspaceUri (noteFileNameFromTitle cfg name)) = true →
      newNote cfg workspaceUri fs (some name) =
        ⟨fs, some (joinPath workspaceUri (noteFileNameFromTitle cfg name))⟩) ∧
    (fsExists fs (joinPath workspaceUri (noteFileNameFromTitle cfg name)) = false →
      newNote cfg workspaceUri fs (some name) =
        ⟨fsWrite fs (joinPath workspaceUri (noteFileNameFromTitle cfg name))
            (noteContents name),
          some (joinPath workspaceUri (noteFileNameFromTitle cfg name))⟩) := by
  constructor
  · intro hex
    simp [newNote, hvalid, hex]
  · intro hex
    simp [newNote, hvalid, hex]

/-- C10 witness: a concrete workspace where the target of title `My Note`
already exists; the command leaves the filesystem unchanged. -/
theorem newNote_never_overwrites_witness :
    newNote
        ⟨true, ("md").toList, SlugifyCharacter.dash,
          WorkspaceFilenameConvention.uniqueFilenames⟩
        (("/ws").toList) ⟨[((("/ws/my-note.md").toList), ("old").toList)]⟩
        (some (("My Note").toList)) =
      ⟨⟨[((("/ws/my-note.md").toList), ("old").toList)]⟩,
        some (("/ws/my-note.md").toList)⟩ :=
  (newNote_never_overwrites
      ⟨true, ("md").toList, SlugifyCharacter.dash,
        WorkspaceFilenameConvention.uniqueFilenames⟩
      (("/ws").toList) ⟨[((("/ws/my-note.md").toList), ("old").toList)]⟩
      (("My Note").toList) (by decide)).1 (by decide)

/-- C6: title-casing capitalizes the first word, the last word, and every
interior word not in the fixed Chicago-style list of lowercase function
words, leaving listed interior words unchanged; in particular the title
`a tale of two cities` yields `A Tale of Two Cities`. -/
theorem titleCase_capitalization (ws : List Str) (hne : ws ≠ [])
    (hfree : ∀ w ∈ ws, ∀ c ∈ w, isJsWs c = false) :
    titleCase (List.intercalate [' '] ws) =
      List.intercalate [' '] (titleCaseWords ws) ∧
    titleCase (("a tale of two cities").toList) =
      ("A Tale of Two Cities").toList := by
  constructor
  · have hpoint : ∀ i w,
        (if i = 0 ∨ i = ws.length - 1 then capitalize w
         else if toLowerStr w ∈ chicagoStyleNoCap then w else capitalize w) =
        (if i = 0 ∨ i = ws.length - 1 then capitalize w
         else if toLowerStr w ∈ chicagoWords then w else capitalize w) := by
      intro i w
      by_cases hfl : i = 0 ∨ i = ws.length - 1
      · simp [hfl]
      · rw [if_neg hfl, if_neg hfl]
        by_cases hwnil : w = []
        · subst hwnil
          simp [toLowerStr, capitalize, ite_self]
        · have hlow : toLowerStr w ≠ [] := by
            simpa [toLowerStr, List.map_eq_nil_iff] using hwnil
          have hmem : (toLowerStr w ∈ chicagoStyleNoCap) ↔
              (toLowerStr w ∈ chicagoWords) := by
            rw [chicagoStyleNoCap_eq]
            simp only [List.mem_cons, List.mem_append]
            constructor
            · rintro (h1 | h2 | h3)
              · exact absurd h1 hlow
              · exact h2
              · simp only [List.mem_cons, List.not_mem_nil, or_false] at h3
                rcases h3 with h3 | h3 | h3 <;> exact absurd h3 hlow
            · intro h2
              exact Or.inr (Or.inl h2)
          by_cases hc : toLowerStr w ∈ chicagoStyleNoCap
          · rw [if_pos hc, if_pos (hmem.mp hc)]
          · rw [if_neg hc, if_neg (fun hx => hc (hmem.mpr hx))]
    by_cases hnil : List.intercalate [' '] ws = []
    · have hws : ws = [[]] := by
        cases ws with
        | nil => exact absurd rfl hne
        | cons w rest =>
          cases rest with
          | nil =>
            rw [intercalate_one] at hnil
            rw [hnil]
          | cons v r2 =>
            rw [intercalate_cons _ _ (by simp)] at hnil
            simp at hnil
      subst hws
      rw [hnil, titleCase]
      simp [titleCaseWords, mapIdxL, capitalize, intercalate_one]
    · rw [titleCase, if_neg hnil,
        jsSplitOn_intercalate (by simp [isJsWs]) ws hne hfree, titleCaseWords]
      exact congrArg (List.intercalate [' ']) (mapIdxL_congr hpoint 0 ws)
  · decide

/-- C6 witness: the scenario title as a word list. -/
theorem titleCase_capitalization_witness :
    titleCase
        (List.intercalate [' ']
          [("a").toList, ("tale").toList, ("of").toList, ("two").toList,
            ("cities").toList]) =
      List.intercalate [' ']
        (titleCaseWords
          [("a").toList, ("tale").toList, ("of").toList, ("two").toList,
            ("cities").toList]) ∧
    titleCase (("a tale of two cities").toList) =
      ("A Tale of Two Cities").toList :=
  titleCase_capitalization
    [("a").toList, ("tale").toList, ("of").toList, ("two").toList,
      ("cities").toList]
    (by decide) (by decide)

/-- C3 counterexample: at the document `[[a.mdx` with the host's wiki-link
range covering the whole match, the scanner returns a Link token whose
captured text is `a.mdx`: `hasExtension` is true although the text does not
end in a recognized note extension — the unanchored `/\.(md|markdown)/i`
match found `.md` inside `.mdx`. -/
theorem getContextWord_hasExtension_cex :
    (getContextWord (("[[a.mdx").toList) none (some (0, 7))).type =
      ContextWordType.WikiLink ∧
    (getContextWord (("[[a.mdx").toList) none (some (0, 7))).word =
      ("a.mdx").toList ∧
    (getContextWord (("[[a.mdx").toList) none (some (0, 7))).hasExtension =
      some true ∧
    endsInRecognizedExtension
      ((getContextWord (("[[a.mdx").toList) none (some (0, 7))).word) = false := by
  decide

/-- C3 (amended): for every scanned Link token — a wiki-link range from the
host, with the tag rule not matching and a non-empty captured text — the
captured text excludes the two leading bracket characters (it is the matched
text without its first two characters), and `hasExtension` is true iff the
captured text contains `.md` or `.markdown` anywhere, case-insensitively
(an unanchored match, not an end-of-string one). -/
theorem getContextWord_wikiLink_token (doc : Str) (a b : Nat)
    (tagR : Option (Nat × Nat))
    (htag : tagR = none ∨ ∃ r, tagR = some r ∧ getTextRange doc r = [])
    (hcw : getTextRange doc (a + 2, b) ≠ []) :
    (getContextWord doc tagR (some (a, b))).type = ContextWordType.WikiLink ∧
    (getContextWord doc tagR (some (a, b))).word =
      (getTextRange doc (a, b)).drop 2 ∧
    ((getContextWord doc tagR (some (a, b))).hasExtension = some true ↔
      ((".md").toList <:+:
          toLowerStr ((getContextWord doc tagR (some (a, b))).word) ∨
        (".markdown").toList <:+:
          toLowerStr ((getContextWord doc tagR (some (a, b))).word))) := by
  have hunfold : getContextWord doc tagR (some (a, b)) =
      { type := ContextWordType.WikiLink, word := getTextRange doc (a + 2, b),
        hasExtension := some (rxMdUnanchoredTest (getTextRange doc (a + 2, b))),
        range := some (a + 2, b) } := by
    rcases htag with h | ⟨r, hr, hempty⟩
    · subst h
      simp [getContextWord, hcw]
    · subst hr
      simp [getContextWord, hempty, hcw]
  refine ⟨by rw [hunfold], ?_, ?_⟩
  · rw [hunfold, getTextRange_shift_two]
  · rw [hunfold]
    simp only [Option.some.injEq]
    rw [show rxMdUnanchoredTest (getTextRange doc (a + 2, b)) =
        (listContainsSub ((".md").toList)
            (toLowerStr (getTextRange doc (a + 2, b))) ||
          listContainsSub ((".markdown").toList)
            (toLowerStr (getTextRange doc (a + 2, b)))) from by
      simp [rxMdUnanchoredTest]]
    rw [Bool.or_eq_true]
    rw [listContainsSub_iff, listContainsSub_iff]

/-- C3 witness: the amended statement at the document `[[note.md`. -/
theorem getContextWord_wikiLink_token_witness :
    (getContextWord (("[[note.md").toList) none (some (0, 9))).type =
      ContextWordType.WikiLink ∧
    (getContextWord (("[[note.md").toList) none (some (0, 9))).word =
      (getTextRange (("[[note.md").toList) (0, 9)).drop 2 ∧
    ((getContextWord (("[[note.md").toList) none (some (0, 9))).hasExtension =
        some true ↔
      ((".md").toList <:+:
          toLowerStr ((getContextWord (("[[note.md").toList) none
            (some (0, 9))).word) ∨
        (".markdown").toList <:+:
          toLowerStr ((getContextWord (("[[note.md").toList) none
            (some (0, 9))).word))) :=
  getContextWord_wikiLink_token (("[[note.md").toList) 0 9 none (Or.inl rfl)
    (by decide)

/-- C4: name normalisation is idempotent — for every slugify setting and
every input string, normalising an already-normalised note name (brackets
stripped, directory and extension removed, separators slugified, lowercased)
yields it unchanged. -/
theorem normalizeNoteNameForFuzzyMatch_idem (k : SlugifyCharacter) (x : Str) :
    normalizeNoteNameForFuzzyMatch k (normalizeNoteNameForFuzzyMatch k x) =
      normalizeNoteNameForFuzzyMatch k x := by
  have hclean : ∀ c ∈ normalizeNoteNameForFuzzyMatch k x, c ∈ cleanChars k :=
    mem_slugifyTitle k _
  have hadj : noAdjNonWord (normalizeNoteNameForFuzzyMatch k x) = true :=
    slugifyTitle_noAdj k _
  have htrim : trimTrailingDU (normalizeNoteNameForFuzzyMatch k x) =
      normalizeNoteNameForFuzzyMatch k x :=
    slugifyTitle_trim_fixed k _
  generalize hgen : normalizeNoteNameForFuzzyMatch k x = y at hclean hadj htrim ⊢
  unfold normalizeNoteNameForFuzzyMatch
  rw [removeBrackets_fixed k hclean, basenameL_fixed k hclean,
    stripExtension_fixed k hclean]
  exact slugifyTitle_fixed k hclean hadj htrim

/-- C2: for every token, occurrence search builds the literal query
`#text` for a Tag and `[[basename(text)]]` for a WikiLink, scans every
corpus file line by line, and returns exactly one range per
whitespace-delimited word strictly equal to the query string — the reported
span starts after any leading whitespace and ends at start plus the trimmed
word's length, with no fuzzy matching (`specOccurrences` is the literal
word-per-line scan the specification describes). -/
theorem search_literal_scan (files : List (Str × Str))
    (contextWord : ContextWord) :
    (contextWord.type = ContextWordType.Tag →
      search files contextWord =
        specOccurrences files ('#' :: contextWord.word)) ∧
    (contextWord.type = ContextWordType.WikiLink →
      search files contextWord =
        specOccurrences files
          ('[' :: '[' :: (basenameL contextWord.word ++ [']', ']']))) := by
  constructor
  · intro ht
    have hquery : searchQuery contextWord = '#' :: contextWord.word := by
      simp [searchQuery, ht]
    simp only [search, specOccurrences, hquery]
    congr 1
    refine List.map_congr_left ?_
    intro f _
    rw [rangesForWord_spec (by simp)]
  · intro ht
    have hquery : searchQuery contextWord =
        '[' :: '[' :: (basenameL contextWord.word ++ [']', ']']) := by
      simp [searchQuery, ht]
    simp only [search, specOccurrences, hquery]
    congr 1
    refine List.map_congr_left ?_
    intro f _
    rw [rangesForWord_spec (by simp)]
